import Mathlib

/-!
Shallow embedding of the `taco` command-alias tool (`src/main.rs`,
`src/rich_edit.rs`).

Modelling conventions:
- Rust `HashMap<String, V>` is modelled as an association list with a
  replace-or-append insert (`Dict`, `dictInsert`); real `HashMap`s have
  unique keys, which appears as the `NodupKeys` hypothesis where a theorem
  depends on it.
- `fs::canonicalize` is an operating-system call; functions that use it take
  the canonical form of the path as an argument (`comps`, the canonical path
  components after the root, or a `canonPwd` string paired with the raw
  `pwd` string where the source uses both).
- Interactive input (`confirm`) and the child process exit status are passed
  in as explicit arguments; printed output is returned as a list of strings
  (one entry per `println!`, terminal colours elided).
- `Config::resolve_project_commands` mutates `self.resolved`, so it is
  embedded in state-passing style, returning the result together with the
  updated `Config`.
-/

namespace Taco

/-- Association-list model of `HashMap<String, α>`. -/
abbrev Dict (α : Type) := List (String × α)

/-- The list of keys of a dictionary. -/
def dictKeys {α : Type} (m : Dict α) : List String := m.map Prod.fst

/-- `HashMap::get` / `contains_key`: first entry with the given key. -/
def dictLookup {α : Type} : Dict α → String → Option α
  | [], _ => none
  | p :: rest, key => if p.1 = key then some p.2 else dictLookup rest key

/-- `HashMap::insert`: replace the value when the key is present, append a new
entry otherwise. -/
def dictInsert {α : Type} (k : String) (v : α) (m : Dict α) : Dict α :=
  if k ∈ dictKeys m then m.map (fun p => if p.1 = k then (k, v) else p)
  else m ++ [(k, v)]

/-- In-place update through `get_mut` of an existing entry. -/
def dictUpdate {α : Type} (k : String) (v : α) (m : Dict α) : Dict α :=
  m.map (fun p => if p.1 = k then (k, v) else p)

/-- `HashMap::remove`. -/
def dictRemove {α : Type} (k : String) (m : Dict α) : Dict α :=
  m.filter (fun p => !(p.1 == k))

/-- `HashMap` key-uniqueness invariant for the association-list model. -/
def NodupKeys {α : Type} (m : Dict α) : Prop := (dictKeys m).Nodup

instance {α : Type} (m : Dict α) : Decidable (NodupKeys m) :=
  inferInstanceAs (Decidable (dictKeys m).Nodup)

/-- One map merged into an accumulator with overwrite, as in
`for (key, value) in map { commands.insert(key, value) }` (main.rs 64-66). -/
def mergeInto (acc m : Dict String) : Dict String :=
  m.foldl (fun a p => dictInsert p.1 p.2 a) acc

/-- `parent.join("/")` together with the drop-the-double-leading-slash fix-up
of `resolve_project_commands` (main.rs 55-60); `parent` includes the root
component `"/"` produced by `Path::iter`. -/
def joinParts (parent : List String) : String :=
  let s := String.intercalate "/" parent
  if s.length > 1 then s.drop 1 else s

/-- The ordered list of ancestor path strings visited by the loop of
`resolve_project_commands` (main.rs 52-68), root first, for a canonical path
whose components after the root are `comps`. -/
def ancestorPaths (comps : List String) : List String :=
  (List.range ("/" :: comps).length).map (fun i => joinParts (("/" :: comps).take (i + 1)))

/-- `path.to_str()`: the canonical path string used as the key of the
`resolved` side-table (main.rs 47-48). -/
def pathKey (comps : List String) : String := joinParts ("/" :: comps)

/-- The `Config` struct (main.rs 11-21): `projects` maps a project location to
its alias-to-command map; `resolved` is the `#[serde(skip)]` side-table used by
`resolve_project_commands` (always empty after `read_config`). -/
structure Config where
  projects : Dict (Dict String)
  resolved : Dict (Dict String)

/-- One step of the prefix loop (main.rs 62-67): merge the commands of the
project registered at prefix `p`, if any, into the accumulator. -/
def mergeStep (projects : Dict (Dict String)) (acc : Dict String) (p : String) : Dict String :=
  match dictLookup projects p with
  | some m => mergeInto acc m
  | none => acc

/-- The `commands` accumulator computed by the prefix loop of
`resolve_project_commands` (main.rs 50-68). -/
def commandsFor (projects : Dict (Dict String)) (ps : List String) : Dict String :=
  ps.foldl (mergeStep projects) []

/-- main.rs 70-72: insert an empty entry into `resolved` when commands were
found and no entry exists yet. -/
def ensureResolvedEntry (cfg : Config) (comps : List String) : Dict (Dict String) :=
  if ¬ commandsFor cfg.projects (ancestorPaths comps) = [] ∧
      ¬ pathKey comps ∈ dictKeys cfg.resolved then
    dictInsert (pathKey comps) [] cfg.resolved
  else cfg.resolved

/-- `Config::resolve_project_commands` (main.rs 46-83) in state-passing style:
the returned option is the borrowed result (the content of the `resolved`
entry after merging `commands` into it), and the second component is the
updated `Config`. -/
def resolveProjectCommands (cfg : Config) (comps : List String) :
    Option (Dict String) × Config :=
  match dictLookup (ensureResolvedEntry cfg comps) (pathKey comps) with
  | some m =>
      (some (mergeInto m (commandsFor cfg.projects (ancestorPaths comps))),
       ⟨cfg.projects,
        dictUpdate (pathKey comps)
          (mergeInto m (commandsFor cfg.projects (ancestorPaths comps)))
          (ensureResolvedEntry cfg comps)⟩)
  | none => (none, ⟨cfg.projects, ensureResolvedEntry cfg comps⟩)

/-- Lookup in the resolution result as callers observe it (`None` is the
absent-project branch of `main`, main.rs 224-228). -/
def resLookup (r : Option (Dict String)) (k : String) : Option String :=
  match r with
  | some m => dictLookup m k
  | none => none

/-- The values contributed for alias `k` by the project entries registered at
the path strings `ps`, in list order. -/
def defsAlong (projects : Dict (Dict String)) (ps : List String) (k : String) : List String :=
  ps.filterMap (fun p => (dictLookup projects p).bind (fun m => dictLookup m k))

/-- `Config::get_project` (main.rs 33-42); `canonPwd` is the result of
`fs::canonicalize(project)`. -/
def get_project (cfg : Config) (canonPwd : String) : Option (Dict String) :=
  if canonPwd ∈ dictKeys cfg.projects then dictLookup cfg.projects canonPwd else none

/-- The `add` subcommand with a name and arguments (main.rs 283-312);
`pwd` is the raw `--pwd` value, `canonPwd` its canonicalization (used only
inside `get_project`), `confirmAnswer` the reply of the interactive `confirm`
call when the alias already exists. Returns the updated `Config`. -/
def add (cfg : Config) (pwd canonPwd name command : String) (confirmAnswer : Bool) : Config :=
  match get_project cfg canonPwd with
  | some project =>
      if (dictLookup project name).isSome ∧ confirmAnswer = false then cfg
      else { cfg with projects := dictUpdate canonPwd (dictInsert name command project) cfg.projects }
  | none => { cfg with projects := dictInsert pwd [(name, command)] cfg.projects }

/-- `print_project_commands` (main.rs 242-269) as the list of printed lines
(colours and the pluralisation of the footer preserved, blank lines elided). -/
def print_project_commands (project : Dict String) : List String :=
  ["Available commands:"]
    ++ (if project.length = 0 then [" ∙ There are no commands available."] else [])
    ++ project.map (fun kv => "  taco " ++ kv.1 ++ "\n    " ++ kv.2)
    ++ [toString project.length ++ " command" ++ (if project.length = 1 then "" else "s")]

/-- The body of the `if let Some(project)` branch of `del` (main.rs 338-351):
`project.remove(name)` either succeeds (success line printed, store written)
or fails (not-found line plus the full direct command list printed). -/
def delFound (cfg : Config) (canonPwd name : String) (project : Dict String) :
    Config × List String :=
  match dictLookup project name with
  | some _ =>
      ({ cfg with projects := dictUpdate canonPwd (dictRemove name project) cfg.projects },
       ["Removed alias \"" ++ name ++ "\""])
  | none =>
      (cfg, ("Alias \"" ++ name ++ "\" does not exist.") :: print_project_commands project)

/-- The `rm` subcommand `del` (main.rs 332-354); `canonPwd` is the
canonicalized `--pwd` (used inside `get_project`). Returns the updated
`Config` and the printed lines. When `get_project` returns `None` the
function body is skipped entirely and nothing is printed. -/
def del (cfg : Config) (canonPwd name : String) : Config × List String :=
  match get_project cfg canonPwd with
  | some project => delFound cfg canonPwd name project
  | none => (cfg, [])

/-- Rust `str::trim`: strip leading and trailing whitespace (the library
function used by `confirm`, modelled over the character list so that it
evaluates in the kernel). -/
def rustTrim (s : String) : String :=
  ⟨((s.data.dropWhile Char.isWhitespace).reverse.dropWhile Char.isWhitespace).reverse⟩

/-- `confirm` (main.rs 381-390): the first component is the printed prompt,
the second the boolean reply computed from the line read from stdin. -/
def confirm (message input : String) : String × Bool :=
  (message ++ " (y/N) ",
   rustTrim input == "y" || rustTrim input == "Y" || rustTrim input == "")

/-- The passthrough-argument append of the execute branch (main.rs 199-209):
join the passthrough tokens with spaces and, when non-empty, append them to
the resolved command string after a single space. -/
def buildShellArg (args : String) (passthrough : List String) : String :=
  let command := String.intercalate " " passthrough
  if command = "" then args else args ++ " " ++ command

/-- Observable outcome of the execute branch. -/
structure DispatchOutcome where
  shellArg : String
  processExit : Nat

/-- The execute branch of `main` (main.rs 196-216 and 237): `zsh -c shellArg`
is run via `.output()`, whose returned `Output` — including the child's exit
status `childExit` — is discarded, after which control falls through to
`Ok(())`, so the tool's own process exit code is `0`. -/
def dispatch (args : String) (passthrough : List String) (childExit : Nat) : DispatchOutcome :=
  { shellArg := buildShellArg args passthrough, processExit := 0 }

/-- A JSON value, for embedding the serde deserialization of `Config`. -/
inductive Json where
  | null : Json
  | bool (b : Bool) : Json
  | num (n : Int) : Json
  | str (s : String) : Json
  | arr (elems : List Json) : Json
  | obj (fields : List (String × Json)) : Json

/-- Decode a JSON object's fields as a `HashMap<String, String>` (every value
must be a string, as serde requires for the inner maps of `projects`). -/
def decodeStrMap : List (String × Json) → Option (Dict String)
  | [] => some []
  | (k, Json.str v) :: rest => (decodeStrMap rest).map (fun r => (k, v) :: r)
  | _ => none

/-- Decode a JSON object's fields as the `projects` map
(`HashMap<String, HashMap<String, String>>`). -/
def decodeProjects : List (String × Json) → Option (Dict (Dict String))
  | [] => some []
  | (k, Json.obj inner) :: rest =>
      match decodeStrMap inner, decodeProjects rest with
      | some m, some r => some ((k, m) :: r)
      | _, _ => none
  | _ => none

/-- The serde-derived deserializer for `Config` as invoked by `read_config`
(main.rs 11-21 and 421-427): the document must be an object; the `projects`
field is required (no `#[serde(default)]`) and must occur exactly once;
unknown fields are ignored (no `deny_unknown_fields`); `resolved` is
`#[serde(skip)]`, so it is initialised empty and any `resolved` input field is
treated as unknown. `none` models a deserialization error, which
`read_config` turns into a panic. The field loop: exactly one `projects`
field is required (zero occurrences is the missing-field error, two the
duplicate-field error), every other field is skipped. -/
def decodeConfigFields (fields : List (String × Json)) : Option Config :=
  match fields.filter (fun kv => kv.1 == "projects") with
  | [(_, Json.obj pfields)] => (decodeProjects pfields).map (fun ps => ⟨ps, []⟩)
  | _ => none

/-- The document must be a JSON object; its fields are decoded by
`decodeConfigFields`. -/
def decodeConfig : Json → Option Config
  | Json.obj fields => decodeConfigFields fields
  | _ => none

/-- Modelled from the spec: the Alias Link data of the Store (spec §3, §6).
The `Config` under `src/` has no links field; the label mechanism ("a
Project path may have zero or one list of labels pointing outward", "a label
may reference multiple projects") is taken from the spec's words. `links`
maps a project path to the labels it imports; `labels` maps a label to its
target project paths. -/
structure LinkedStore where
  projects : Dict (Dict String)
  links : Dict (List String)
  labels : Dict (List String)

/-- Modelled from the spec: merge that writes "only for keys not already
present" (spec §4.1 step 3a, first writer wins). -/
def mergeKeep (acc m : Dict String) : Dict String :=
  m.foldl (fun a p => if p.1 ∈ dictKeys a then a else dictInsert p.1 p.2 a) acc

/-- Modelled from the spec: at one prefix, resolve each linked label to its
target projects in link order and merge each target's commands, filling gaps
only (spec §4.1 step 3a). -/
def linkFill (s : LinkedStore) (acc : Dict String) (p : String) : Dict String :=
  ((dictLookup s.links p).getD []).foldl
    (fun a lbl =>
      ((dictLookup s.labels lbl).getD []).foldl
        (fun a q => mergeKeep a ((dictLookup s.projects q).getD [])) a)
    acc

/-- Modelled from the spec: one prefix step of linked resolution — links fill
gaps first (step 3a), then the prefix's own project overwrites (step 3b). -/
def linkedStep (s : LinkedStore) (acc : Dict String) (p : String) : Dict String :=
  match dictLookup s.projects p with
  | some m => mergeInto (linkFill s acc p) m
  | none => linkFill s acc p

/-- Modelled from the spec: full linked resolution over the prefixes of the
canonical path, root first (spec §4.1). -/
def resolveLinked (s : LinkedStore) (ps : List String) : Dict String :=
  ps.foldl (linkedStep s) []

/-! ### Dictionary lemmas -/

theorem dictKeys_nil {α : Type} : dictKeys ([] : Dict α) = [] := rfl

theorem dictKeys_cons {α : Type} (p : String × α) (rest : Dict α) :
    dictKeys (p :: rest) = p.1 :: dictKeys rest := rfl

theorem dictLookup_eq_none_iff {α : Type} (m : Dict α) (k : String) :
    dictLookup m k = none ↔ k ∉ dictKeys m := by
  induction m with
  | nil => simp [dictLookup, dictKeys]
  | cons p rest ih =>
    rw [dictKeys_cons]
    by_cases h : p.1 = k
    · subst h
      simp [dictLookup]
    · rw [dictLookup, if_neg h, ih]
      constructor
      · intro hk hor
        rcases List.mem_cons.mp hor with h1 | h2
        · exact h h1.symm
        · exact hk h2
      · intro hk h2
        exact hk (List.mem_cons_of_mem _ h2)

theorem dictLookup_mem {α : Type} (m : Dict α) (k : String) (v : α)
    (h : dictLookup m k = some v) : (k, v) ∈ m := by
  induction m with
  | nil => simp [dictLookup] at h
  | cons p rest ih =>
    by_cases hp : p.1 = k
    · rw [dictLookup, if_pos hp] at h
      have hv : p.2 = v := Option.some.inj h
      have hpv : p = (k, v) := by
        obtain ⟨a, b⟩ := p
        simp only at hp hv
        rw [hp, hv]
      rw [← hpv]
      exact List.mem_cons_self _ _
    · rw [dictLookup, if_neg hp] at h
      exact List.mem_cons_of_mem _ (ih h)

theorem mem_dictKeys {α : Type} (m : Dict α) (k : String) (v : α)
    (h : (k, v) ∈ m) : k ∈ dictKeys m :=
  List.mem_map_of_mem Prod.fst h

theorem mem_dictLookup {α : Type} (m : Dict α) (k : String) (v : α)
    (hnd : NodupKeys m) (h : (k, v) ∈ m) : dictLookup m k = some v := by
  induction m with
  | nil => simp at h
  | cons p rest ih =>
    have hnd' : p.1 ∉ dictKeys rest ∧ NodupKeys rest := by
      rw [NodupKeys, dictKeys_cons, List.nodup_cons] at hnd
      exact hnd
    rcases List.mem_cons.mp h with h1 | h2
    · rw [← h1, dictLookup, if_pos rfl]
    · have hk : k ∈ dictKeys rest := mem_dictKeys rest k v h2
      have hne : p.1 ≠ k := fun he => hnd'.1 (he ▸ hk)
      rw [dictLookup, if_neg hne]
      exact ih hnd'.2 h2

theorem dictLookup_append {α : Type} (m m' : Dict α) (k : String) :
    dictLookup (m ++ m') k =
      match dictLookup m k with
      | some v => some v
      | none => dictLookup m' k := by
  induction m with
  | nil => rfl
  | cons p rest ih =>
    by_cases h : p.1 = k
    · rw [List.cons_append, dictLookup, if_pos h, dictLookup, if_pos h]
    · rw [List.cons_append, dictLookup, if_neg h, dictLookup, if_neg h, ih]

theorem dictLookup_replace_self {α : Type} (k : String) (v : α) (m : Dict α)
    (h : k ∈ dictKeys m) :
    dictLookup (m.map (fun p => if p.1 = k then (k, v) else p)) k = some v := by
  induction m with
  | nil => simp [dictKeys] at h
  | cons p rest ih =>
    by_cases hp : p.1 = k
    · rw [List.map_cons, if_pos hp, dictLookup, if_pos rfl]
    · have hk : k ∈ dictKeys rest := by
        rw [dictKeys_cons] at h
        rcases List.mem_cons.mp h with h1 | h2
        · exact absurd h1.symm hp
        · exact h2
      rw [List.map_cons, if_neg hp, dictLookup, if_neg hp]
      exact ih hk

theorem dictLookup_insert_self {α : Type} (k : String) (v : α) (m : Dict α) :
    dictLookup (dictInsert k v m) k = some v := by
  unfold dictInsert
  by_cases h : k ∈ dictKeys m
  · rw [if_pos h]
    exact dictLookup_replace_self k v m h
  · rw [if_neg h, dictLookup_append, (dictLookup_eq_none_iff m k).mpr h]
    rw [dictLookup, if_pos rfl]

theorem dictLookup_replace_ne {α : Type} (k' : String) (v : α) (k : String)
    (h : k' ≠ k) (m : Dict α) :
    dictLookup (m.map (fun p => if p.1 = k' then (k', v) else p)) k = dictLookup m k := by
  induction m with
  | nil => rfl
  | cons p rest ih =>
    by_cases hp : p.1 = k'
    · have hk : p.1 ≠ k := by rw [hp]; exact h
      rw [List.map_cons, if_pos hp, dictLookup, if_neg h, dictLookup, if_neg hk, ih]
    · rw [List.map_cons, if_neg hp]
      by_cases hq : p.1 = k
      · rw [dictLookup, if_pos hq, dictLookup, if_pos hq]
      · rw [dictLookup, if_neg hq, dictLookup, if_neg hq, ih]

theorem dictLookup_insert_ne {α : Type} (k' : String) (v : α) (k : String)
    (h : k' ≠ k) (m : Dict α) :
    dictLookup (dictInsert k' v m) k = dictLookup m k := by
  unfold dictInsert
  by_cases hm : k' ∈ dictKeys m
  · rw [if_pos hm]
    exact dictLookup_replace_ne k' v k h m
  · rw [if_neg hm, dictLookup_append]
    cases hc : dictLookup m k with
    | some v' => rfl
    | none => rw [dictLookup, if_neg h, dictLookup]

theorem dictKeys_replace {α : Type} (k : String) (v : α) (m : Dict α) :
    dictKeys (m.map (fun p => if p.1 = k then (k, v) else p)) = dictKeys m := by
  induction m with
  | nil => rfl
  | cons p rest ih =>
    rw [List.map_cons, dictKeys_cons, dictKeys_cons, ih]
    congr 1
    by_cases hp : p.1 = k
    · rw [if_pos hp]
      exact hp.symm
    · rw [if_neg hp]

theorem nodupKeys_insert {α : Type} (k : String) (v : α) (m : Dict α)
    (h : NodupKeys m) : NodupKeys (dictInsert k v m) := by
  unfold dictInsert
  by_cases hm : k ∈ dictKeys m
  · rw [if_pos hm]
    unfold NodupKeys
    rw [dictKeys_replace]
    exact h
  · rw [if_neg hm]
    unfold NodupKeys
    have happ : dictKeys (m ++ [(k, v)]) = dictKeys m ++ [k] := by
      unfold dictKeys
      rw [List.map_append]
      rfl
    rw [happ]
    refine List.Nodup.append h (List.nodup_singleton k) ?_
    intro a ha hb
    rw [List.mem_singleton.mp hb] at ha
    exact hm ha

theorem foldl_preserve {α : Type} {β : Type} (P : α → Prop) (f : α → β → α) :
    ∀ (l : List β) (a : α), (∀ x b, b ∈ l → P x → P (f x b)) → P a → P (l.foldl f a)
  | [], _, _, ha => ha
  | b :: l, a, h, ha =>
    foldl_preserve P f l (f a b) (fun x b' hb' => h x b' (List.mem_cons_of_mem _ hb'))
      (h a b (List.mem_cons_self _ _) ha)

theorem mergeInto_nodup (acc m : Dict String) (h : NodupKeys acc) :
    NodupKeys (mergeInto acc m) := by
  unfold mergeInto
  exact foldl_preserve NodupKeys _ m acc (fun x b _ hx => nodupKeys_insert b.1 b.2 x hx) h

theorem mergeInto_lookup_not_mem (m : Dict String) (k : String) (h : k ∉ dictKeys m) :
    ∀ acc, dictLookup (mergeInto acc m) k = dictLookup acc k := by
  induction m with
  | nil => intro acc; rfl
  | cons p rest ih =>
    intro acc
    have h1 : p.1 ≠ k := fun he => h (by rw [dictKeys_cons, he]; exact List.mem_cons_self _ _)
    have h2 : k ∉ dictKeys rest :=
      fun hk => h (by rw [dictKeys_cons]; exact List.mem_cons_of_mem _ hk)
    show dictLookup (mergeInto (dictInsert p.1 p.2 acc) rest) k = dictLookup acc k
    rw [ih h2, dictLookup_insert_ne p.1 p.2 k h1]

theorem mergeInto_lookup_of_some (m : Dict String) (k v : String)
    (hm : NodupKeys m) (h : dictLookup m k = some v) :
    ∀ acc, dictLookup (mergeInto acc m) k = some v := by
  induction m with
  | nil => simp [dictLookup] at h
  | cons p rest ih =>
    intro acc
    have hnd : p.1 ∉ dictKeys rest ∧ NodupKeys rest := by
      rw [NodupKeys, dictKeys_cons, List.nodup_cons] at hm
      exact hm
    show dictLookup (mergeInto (dictInsert p.1 p.2 acc) rest) k = some v
    by_cases hp : p.1 = k
    · subst hp
      rw [dictLookup, if_pos rfl] at h
      rw [mergeInto_lookup_not_mem rest p.1 hnd.1, dictLookup_insert_self]
      exact h
    · rw [dictLookup, if_neg hp] at h
      exact ih hnd.2 h _

theorem dictReplace_not_mem {α : Type} (k : String) (v : α) (m : Dict α)
    (h : k ∉ dictKeys m) :
    m.map (fun p => if p.1 = k then (k, v) else p) = m := by
  induction m with
  | nil => rfl
  | cons p rest ih =>
    have h1 : p.1 ≠ k := fun he => h (by rw [dictKeys_cons, he]; exact List.mem_cons_self _ _)
    have h2 : k ∉ dictKeys rest :=
      fun hk => h (by rw [dictKeys_cons]; exact List.mem_cons_of_mem _ hk)
    rw [List.map_cons, if_neg h1, ih h2]

theorem dictInsert_eq_self {α : Type} (m : Dict α) (k : String) (v : α)
    (hnd : NodupKeys m) (h : dictLookup m k = some v) : dictInsert k v m = m := by
  have hk : k ∈ dictKeys m := mem_dictKeys m k v (dictLookup_mem m k v h)
  unfold dictInsert
  rw [if_pos hk]
  induction m with
  | nil => rfl
  | cons p rest ih =>
    have hnd' : p.1 ∉ dictKeys rest ∧ NodupKeys rest := by
      rw [NodupKeys, dictKeys_cons, List.nodup_cons] at hnd
      exact hnd
    by_cases hp : p.1 = k
    · rw [dictLookup, if_pos hp] at h
      have hpv : p = (k, v) := by
        obtain ⟨a, b⟩ := p
        simp only at hp h ⊢
        rw [hp, Option.some.inj h]
      rw [List.map_cons, if_pos hp,
        dictReplace_not_mem k v rest (by rw [← hp]; exact hnd'.1), hpv]
    · rw [dictLookup, if_neg hp] at h
      have hk' : k ∈ dictKeys rest := by
        rw [dictKeys_cons] at hk
        rcases List.mem_cons.mp hk with h1 | h2
        · exact absurd h1.symm hp
        · exact h2
      rw [List.map_cons, if_neg hp, ih hnd'.2 h hk']

theorem mergeInto_self (acc : Dict String) (hnd : NodupKeys acc) :
    ∀ (m : Dict String), (∀ p ∈ m, dictLookup acc p.1 = some p.2) → mergeInto acc m = acc := by
  intro m
  induction m with
  | nil => intro _; rfl
  | cons p rest ih =>
    intro h
    show mergeInto (dictInsert p.1 p.2 acc) rest = acc
    rw [dictInsert_eq_self acc p.1 p.2 hnd (h p (List.mem_cons_self _ _))]
    exact ih (fun q hq => h q (List.mem_cons_of_mem _ hq))

/-! ### The prefix walk: lookup characterization -/

/-- The last element of `l` when there is one, `o` otherwise. -/
def lastOr (l : List String) (o : Option String) : Option String :=
  match l.getLast? with
  | some v => some v
  | none => o

theorem lastOr_nil (o : Option String) : lastOr [] o = o := rfl

theorem lastOr_none (l : List String) : lastOr l none = l.getLast? := by
  unfold lastOr
  cases h : l.getLast? with
  | some v => rfl
  | none => rfl

theorem getLast?_cons_some {α : Type} (b : α) (l : List α) (v : α)
    (h : l.getLast? = some v) : (b :: l).getLast? = some v := by
  cases l with
  | nil => simp at h
  | cons c t => rw [List.getLast?_cons_cons]; exact h

theorem getLast?_of_ne_nil {α : Type} (l : List α) (h : l ≠ []) :
    ∃ v, l.getLast? = some v := by
  cases hl : l.getLast? with
  | some v => exact ⟨v, rfl⟩
  | none => exact absurd (List.getLast?_eq_none_iff.mp hl) h

theorem commandsFor_nodup (projects : Dict (Dict String)) (ps : List String) :
    NodupKeys (commandsFor projects ps) :=
  foldl_preserve NodupKeys (mergeStep projects) ps []
    (fun x p _ hx => by
      unfold mergeStep
      cases h : dictLookup projects p with
      | some m => exact mergeInto_nodup x m hx
      | none => exact hx)
    List.nodup_nil

theorem commandsFor_go (projects : Dict (Dict String))
    (hwf : ∀ kv ∈ projects, NodupKeys kv.2) (k : String) :
    ∀ (ps : List String) (acc : Dict String),
      dictLookup (ps.foldl (mergeStep projects) acc) k =
        lastOr (defsAlong projects ps k) (dictLookup acc k) := by
  intro ps
  induction ps with
  | nil => intro acc; rfl
  | cons p ps' ih =>
    intro acc
    show dictLookup (ps'.foldl (mergeStep projects) (mergeStep projects acc p)) k = _
    rw [ih (mergeStep projects acc p)]
    by_cases hd : defsAlong projects ps' k = []
    · rw [hd, lastOr_nil]
      unfold mergeStep
      cases hp : dictLookup projects p with
      | none =>
        have hface : defsAlong projects (p :: ps') k = defsAlong projects ps' k := by
          unfold defsAlong
          rw [List.filterMap_cons]
          simp [hp]
        rw [hface, hd, lastOr_nil]
      | some m =>
        cases hm : dictLookup m k with
        | none =>
          have hface : defsAlong projects (p :: ps') k = defsAlong projects ps' k := by
            unfold defsAlong
            rw [List.filterMap_cons]
            simp [hp, hm]
          rw [hface, hd, lastOr_nil]
          exact mergeInto_lookup_not_mem m k ((dictLookup_eq_none_iff m k).mp hm) acc
        | some v =>
          have hface : defsAlong projects (p :: ps') k = [v] := by
            unfold defsAlong
            rw [List.filterMap_cons, hp]
            have hb : ((some m).bind fun m => dictLookup m k) = dictLookup m k := rfl
            rw [hb, hm]
            unfold defsAlong at hd
            rw [hd]
          rw [hface]
          show dictLookup (mergeInto acc m) k = some v
          exact mergeInto_lookup_of_some m k v
            (hwf (p, m) (dictLookup_mem projects p m hp)) hm acc
    · obtain ⟨v', hv'⟩ := getLast?_of_ne_nil _ hd
      have hL : lastOr (defsAlong projects ps' k) (dictLookup (mergeStep projects acc p) k)
          = some v' := by
        unfold lastOr
        rw [hv']
      have hface : (defsAlong projects (p :: ps') k).getLast? = some v' := by
        unfold defsAlong
        rw [List.filterMap_cons]
        cases hf : (dictLookup projects p).bind (fun m => dictLookup m k) with
        | none => exact hv'
        | some b => exact getLast?_cons_some b _ v' hv'
      rw [hL]
      unfold lastOr
      rw [hface]

theorem commandsFor_lookup (projects : Dict (Dict String))
    (hwf : ∀ kv ∈ projects, NodupKeys kv.2) (ps : List String) (k : String) :
    dictLookup (commandsFor projects ps) k = (defsAlong projects ps k).getLast? := by
  show dictLookup (ps.foldl (mergeStep projects) []) k = _
  rw [commandsFor_go projects hwf k ps []]
  show lastOr _ none = _
  exact lastOr_none _

/-! ### Resolution helper lemmas -/

theorem mergeInto_nil_lookup (m : Dict String) (hm : NodupKeys m) (k : String) :
    dictLookup (mergeInto [] m) k = dictLookup m k := by
  cases h : dictLookup m k with
  | some v => exact mergeInto_lookup_of_some m k v hm h []
  | none =>
    rw [mergeInto_lookup_not_mem m k ((dictLookup_eq_none_iff m k).mp h) []]
    rfl

theorem dictLookup_singleton_self {α : Type} (k : String) (v : α) :
    dictLookup [(k, v)] k = some v := by
  rw [dictLookup, if_pos rfl]

theorem dictUpdate_singleton {α : Type} (k : String) (v w : α) :
    dictUpdate k v [(k, w)] = [(k, v)] := by
  unfold dictUpdate
  rw [List.map_cons, if_pos rfl]
  rfl

theorem ensure_of_empty_resolved_nil (cfg : Config) (comps : List String)
    (hres : cfg.resolved = [])
    (hC : commandsFor cfg.projects (ancestorPaths comps) = []) :
    ensureResolvedEntry cfg comps = [] := by
  unfold ensureResolvedEntry
  rw [if_neg (fun hand => hand.1 hC), hres]

theorem ensure_of_empty_resolved_cons (cfg : Config) (comps : List String)
    (hres : cfg.resolved = [])
    (hC : ¬ commandsFor cfg.projects (ancestorPaths comps) = []) :
    ensureResolvedEntry cfg comps = [(pathKey comps, [])] := by
  unfold ensureResolvedEntry
  rw [hres, if_pos ⟨hC, List.not_mem_nil _⟩]
  have hnm : ¬ pathKey comps ∈ dictKeys ([] : Dict (Dict String)) := List.not_mem_nil _
  rw [dictInsert, if_neg hnm]
  rfl

theorem resolve_empty_case (cfg : Config) (comps : List String)
    (hres : cfg.resolved = [])
    (hC : commandsFor cfg.projects (ancestorPaths comps) = []) :
    resolveProjectCommands cfg comps = (none, ⟨cfg.projects, []⟩) := by
  unfold resolveProjectCommands
  rw [ensure_of_empty_resolved_nil cfg comps hres hC]
  rfl

theorem resolve_nonempty_case (cfg : Config) (comps : List String)
    (hres : cfg.resolved = [])
    (hC : ¬ commandsFor cfg.projects (ancestorPaths comps) = []) :
    resolveProjectCommands cfg comps
      = (some (mergeInto [] (commandsFor cfg.projects (ancestorPaths comps))),
         ⟨cfg.projects,
          [(pathKey comps, mergeInto [] (commandsFor cfg.projects (ancestorPaths comps)))]⟩) := by
  unfold resolveProjectCommands
  rw [ensure_of_empty_resolved_cons cfg comps hres hC, dictLookup_singleton_self]
  show (some (mergeInto [] (commandsFor cfg.projects (ancestorPaths comps))),
        (⟨cfg.projects,
          dictUpdate (pathKey comps)
            (mergeInto [] (commandsFor cfg.projects (ancestorPaths comps)))
            [(pathKey comps, [])]⟩ : Config)) = _
  rw [dictUpdate_singleton]

theorem ensure_of_mem (cfg : Config) (comps : List String)
    (h : pathKey comps ∈ dictKeys cfg.resolved) :
    ensureResolvedEntry cfg comps = cfg.resolved := by
  unfold ensureResolvedEntry
  rw [if_neg (fun hand => hand.2 h)]

/-! ### Claim theorems -/

/-- C1: for every well-formed store as loaded from disk (unique keys per
project map, empty `resolved` side-table) and every canonicalizable directory,
the resolution result maps each alias `k` exactly as the root-to-leaf union of
the direct command maps of the registered ancestor-prefix projects: the bound
value is the one contributed by the deepest ancestor prefix defining `k`
(entries inserted root-to-leaf, later ones overwriting earlier ones), and `k`
is bound only if some ancestor-prefix project defines it — so commands
registered at a directory that is not a prefix of the resolved path (e.g. a
sibling) never appear. -/
theorem resolve_commands_union (cfg : Config) (comps : List String) (k : String)
    (hwf : ∀ kv ∈ cfg.projects, NodupKeys kv.2) (hres : cfg.resolved = []) :
    resLookup (resolveProjectCommands cfg comps).1 k
      = (defsAlong cfg.projects (ancestorPaths comps) k).getLast? := by
  rw [← commandsFor_lookup cfg.projects hwf (ancestorPaths comps) k]
  by_cases hC : commandsFor cfg.projects (ancestorPaths comps) = []
  · rw [resolve_empty_case cfg comps hres hC, hC]
    rfl
  · rw [resolve_nonempty_case cfg comps hres hC]
    show dictLookup (mergeInto [] (commandsFor cfg.projects (ancestorPaths comps))) k = _
    exact mergeInto_nil_lookup _ (commandsFor_nodup _ _) k

/-- Witness for C1: `/a` and `/a/b` both define `x`, the sibling `/a/c`
defines `z`; resolving `/a/b` maps `x` to the deeper value `"2"` and leaves
the sibling's `z` unbound. -/
theorem resolve_commands_union_witness :
    (∀ kv ∈ ([("/a", [("x", "1")]), ("/a/b", [("x", "2"), ("y", "3")]),
        ("/a/c", [("z", "9")])] : Dict (Dict String)), NodupKeys kv.2)
    ∧ resLookup (resolveProjectCommands
        ⟨[("/a", [("x", "1")]), ("/a/b", [("x", "2"), ("y", "3")]), ("/a/c", [("z", "9")])],
         []⟩ ["a", "b"]).1 "x"
      = (defsAlong
          [("/a", [("x", "1")]), ("/a/b", [("x", "2"), ("y", "3")]), ("/a/c", [("z", "9")])]
          (ancestorPaths ["a", "b"]) "x").getLast?
    ∧ (defsAlong
        [("/a", [("x", "1")]), ("/a/b", [("x", "2"), ("y", "3")]), ("/a/c", [("z", "9")])]
        (ancestorPaths ["a", "b"]) "x").getLast? = some "2"
    ∧ resLookup (resolveProjectCommands
        ⟨[("/a", [("x", "1")]), ("/a/b", [("x", "2"), ("y", "3")]), ("/a/c", [("z", "9")])],
         []⟩ ["a", "b"]).1 "z" = none :=
  ⟨by decide, resolve_commands_union _ ["a", "b"] "x" (by decide) rfl, by decide, by decide⟩

/-- C6 counterexample: with an empty store, resolving `/a` returns the absent
result `none` (the caller in `main` then prints the generic help), not the
empty mapping `some []` that the claim describes as the valid non-error
result. -/
theorem resolve_no_commands_absent :
    (resolveProjectCommands ⟨[], []⟩ ["a"]).1 = none
    ∧ ¬ (resolveProjectCommands ⟨[], []⟩ ["a"]).1 = some [] :=
  ⟨by decide, by decide⟩

/-- C6 amended: for every canonicalizable directory with no visible commands
(no registered ancestor-prefix project defines anything), resolution returns
the absent result `None` — not an empty mapping; callers such as `print`
substitute an empty map via `unwrap_or`. -/
theorem resolve_none_of_no_commands (cfg : Config) (comps : List String)
    (hres : cfg.resolved = [])
    (h : ∀ p ∈ ancestorPaths comps, ∀ m, dictLookup cfg.projects p = some m → m = []) :
    (resolveProjectCommands cfg comps).1 = none := by
  have hC : commandsFor cfg.projects (ancestorPaths comps) = [] := by
    unfold commandsFor
    refine foldl_preserve (fun a => a = []) (mergeStep cfg.projects)
      (ancestorPaths comps) [] ?_ rfl
    intro x p hp hx
    subst hx
    unfold mergeStep
    cases hq : dictLookup cfg.projects p with
    | none => rfl
    | some m =>
      have hm := h p hp m hq
      subst hm
      rfl
  rw [resolve_empty_case cfg comps hres hC]

/-- Witness for C6 amended: the store only registers `/b`, so resolving `/a`
has no visible commands and returns `none`. -/
theorem resolve_none_of_no_commands_witness :
    (∀ p ∈ ancestorPaths ["a"], ∀ m,
      dictLookup ([("/b", [("x", "1")])] : Dict (Dict String)) p = some m → m = [])
    ∧ (resolveProjectCommands ⟨[("/b", [("x", "1")])], []⟩ ["a"]).1 = none := by
  have hyp : ∀ p ∈ ancestorPaths ["a"], ∀ m,
      dictLookup ([("/b", [("x", "1")])] : Dict (Dict String)) p = some m → m = [] := by
    have he : ancestorPaths ["a"] = ["/", "/a"] := by decide
    rw [he]
    intro p hp m hm
    rcases List.mem_cons.mp hp with rfl | hp2
    · simp [dictLookup] at hm
    · rcases List.mem_cons.mp hp2 with rfl | hp3
      · simp [dictLookup] at hm
      · simp at hp3
  exact ⟨hyp, resolve_none_of_no_commands _ _ rfl hyp⟩

/-- C8: resolution never mutates the store's `projects` mapping — the
`Config` returned by `resolve_project_commands` carries `projects` unchanged
(every key and every alias-to-command entry identical); only the transient
`resolved` side-table is written. -/
theorem resolve_preserves_projects (cfg : Config) (comps : List String) :
    ((resolveProjectCommands cfg comps).2).projects = cfg.projects := by
  unfold resolveProjectCommands
  cases h : dictLookup (ensureResolvedEntry cfg comps) (pathKey comps) with
  | some m => rfl
  | none => rfl

/-- C9: resolving the same directory twice against the same loaded store
(empty `resolved` side-table at load, no mutation in between) yields the
identical command mapping, even though the first call populates the memoizing
`resolved` side-table that the second call then hits and re-merges into. -/
theorem resolve_idempotent (cfg : Config) (comps : List String)
    (hres : cfg.resolved = []) :
    (resolveProjectCommands (resolveProjectCommands cfg comps).2 comps).1
      = (resolveProjectCommands cfg comps).1 := by
  by_cases hC : commandsFor cfg.projects (ancestorPaths comps) = []
  · rw [resolve_empty_case cfg comps hres hC]
    dsimp only
    rw [resolve_empty_case ⟨cfg.projects, []⟩ comps rfl hC]
  · rw [resolve_nonempty_case cfg comps hres hC]
    dsimp only
    have hndC : NodupKeys (commandsFor cfg.projects (ancestorPaths comps)) :=
      commandsFor_nodup _ _
    have hnd1 : NodupKeys (mergeInto [] (commandsFor cfg.projects (ancestorPaths comps))) :=
      mergeInto_nodup _ _ List.nodup_nil
    have hall : ∀ p ∈ commandsFor cfg.projects (ancestorPaths comps),
        dictLookup (mergeInto [] (commandsFor cfg.projects (ancestorPaths comps))) p.1
          = some p.2 :=
      fun p hp => mergeInto_lookup_of_some _ p.1 p.2 hndC (mem_dictLookup _ p.1 p.2 hndC hp) []
    unfold resolveProjectCommands
    rw [ensure_of_mem
      ⟨cfg.projects,
       [(pathKey comps, mergeInto [] (commandsFor cfg.projects (ancestorPaths comps)))]⟩
      comps (List.mem_cons_self _ _)]
    rw [dictLookup_singleton_self]
    show some (mergeInto (mergeInto [] (commandsFor cfg.projects (ancestorPaths comps)))
        (commandsFor cfg.projects (ancestorPaths comps))) = _
    rw [mergeInto_self _ hnd1 _ hall]

/-- Witness for C9 at a concrete store. -/
theorem resolve_idempotent_witness :
    ((⟨[("/a", [("x", "1")])], []⟩ : Config).resolved = [])
    ∧ (resolveProjectCommands
        (resolveProjectCommands ⟨[("/a", [("x", "1")])], []⟩ ["a"]).2 ["a"]).1
      = (resolveProjectCommands ⟨[("/a", [("x", "1")])], []⟩ ["a"]).1 :=
  ⟨rfl, resolve_idempotent _ ["a"] rfl⟩

/-! ### Linked resolution lemmas (spec-modelled feature) -/

theorem mergeKeep_lookup_some (m acc : Dict String) (k v : String)
    (h : dictLookup acc k = some v) : dictLookup (mergeKeep acc m) k = some v := by
  unfold mergeKeep
  refine foldl_preserve (fun a => dictLookup a k = some v) _ m acc ?_ h
  intro x b _ hx
  by_cases hb : b.1 ∈ dictKeys x
  · rw [if_pos hb]
    exact hx
  · rw [if_neg hb]
    by_cases hbk : b.1 = k
    · exact absurd (by rw [hbk]; exact mem_dictKeys x k v (dictLookup_mem x k v hx)) hb
    · rw [dictLookup_insert_ne b.1 b.2 k hbk]
      exact hx

theorem linkFill_lookup_some (s : LinkedStore) (p : String) (acc : Dict String) (k v : String)
    (h : dictLookup acc k = some v) : dictLookup (linkFill s acc p) k = some v := by
  unfold linkFill
  refine foldl_preserve (fun a => dictLookup a k = some v) _ _ acc ?_ h
  intro x lbl _ hx
  refine foldl_preserve (fun a => dictLookup a k = some v) _ _ x ?_ hx
  intro y q _ hy
  exact mergeKeep_lookup_some _ y k v hy

theorem resolveLinked_go (s : LinkedStore)
    (hwf : ∀ kv ∈ s.projects, NodupKeys kv.2) (k : String) :
    ∀ (ps : List String) (acc : Dict String),
      defsAlong s.projects ps k ≠ [] →
      dictLookup (ps.foldl (linkedStep s) acc) k = (defsAlong s.projects ps k).getLast? := by
  intro ps
  induction ps with
  | nil => intro acc hd; exact absurd rfl hd
  | cons p ps' ih =>
    intro acc hd
    show dictLookup (ps'.foldl (linkedStep s) (linkedStep s acc p)) k = _
    by_cases hd' : defsAlong s.projects ps' k = []
    · cases hp : dictLookup s.projects p with
      | none =>
        exfalso
        apply hd
        unfold defsAlong
        rw [List.filterMap_cons, hp]
        unfold defsAlong at hd'
        exact hd'
      | some m =>
        cases hm : dictLookup m k with
        | none =>
          exfalso
          apply hd
          unfold defsAlong
          rw [List.filterMap_cons, hp]
          have hb : ((some m).bind fun m => dictLookup m k) = dictLookup m k := rfl
          rw [hb, hm]
          unfold defsAlong at hd'
          exact hd'
        | some v =>
          have hface : defsAlong s.projects (p :: ps') k = [v] := by
            unfold defsAlong
            rw [List.filterMap_cons, hp]
            have hb : ((some m).bind fun m => dictLookup m k) = dictLookup m k := rfl
            rw [hb, hm]
            unfold defsAlong at hd'
            rw [hd']
          rw [hface]
          show dictLookup (ps'.foldl (linkedStep s) (linkedStep s acc p)) k = some v
          have hstart : dictLookup (linkedStep s acc p) k = some v := by
            unfold linkedStep
            rw [hp]
            show dictLookup (mergeInto (linkFill s acc p) m) k = some v
            exact mergeInto_lookup_of_some m k v
              (hwf (p, m) (dictLookup_mem s.projects p m hp)) hm _
          refine foldl_preserve (fun a => dictLookup a k = some v) (linkedStep s)
            ps' (linkedStep s acc p) ?_ hstart
          intro x q hq hx
          unfold linkedStep
          cases hq2 : dictLookup s.projects q with
          | none => exact linkFill_lookup_some s q x k v hx
          | some m' =>
            have hqnone : ((dictLookup s.projects q).bind fun m => dictLookup m k) = none := by
              unfold defsAlong at hd'
              exact List.filterMap_eq_nil_iff.mp hd' q hq
            rw [hq2] at hqnone
            have hm'k : dictLookup m' k = none := hqnone
            show dictLookup (mergeInto (linkFill s x q) m') k = some v
            rw [mergeInto_lookup_not_mem m' k ((dictLookup_eq_none_iff m' k).mp hm'k)]
            exact linkFill_lookup_some s q x k v hx
    · obtain ⟨v', hv'⟩ := getLast?_of_ne_nil _ hd'
      have hface : (defsAlong s.projects (p :: ps') k).getLast? = some v' := by
        unfold defsAlong
        rw [List.filterMap_cons]
        cases hf : (dictLookup s.projects p).bind (fun m => dictLookup m k) with
        | none => exact hv'
        | some b => exact getLast?_cons_some b _ v' hv'
      rw [hface, ih (linkedStep s acc p) hd', hv']

/-- C2 (the Alias Link mechanism is modelled from the spec, see
`LinkedStore`): for every linked store with well-formed project maps and
every prefix walk, whenever some real Project entry on the path directly
defines alias `k`, the linked resolution binds `k` to the deepest direct
definition — linked projects merge "only for keys not already present", so a
directly defined command always beats a linked one, regardless of link
registration order (the store, hence every link order, is universally
quantified). -/
theorem resolveLinked_direct_beats_linked (s : LinkedStore) (ps : List String) (k : String)
    (hwf : ∀ kv ∈ s.projects, NodupKeys kv.2)
    (hdef : defsAlong s.projects ps k ≠ []) :
    dictLookup (resolveLinked s ps) k = (defsAlong s.projects ps k).getLast? :=
  resolveLinked_go s hwf k ps [] hdef

/-- Witness for C2: `/p` links to label `L` targeting `/q` (which defines
`y → "Q"` and `z → "Z"`), while `/p` directly defines `y → "P"`; resolving
`/p` yields `y → "P"` (local beats linked) and `z → "Z"` (link fills the
gap). -/
theorem resolveLinked_direct_beats_linked_witness :
    (∀ kv ∈ ([("/p", [("y", "P")]), ("/q", [("y", "Q"), ("z", "Z")])] : Dict (Dict String)),
      NodupKeys kv.2)
    ∧ defsAlong [("/p", [("y", "P")]), ("/q", [("y", "Q"), ("z", "Z")])]
        (ancestorPaths ["p"]) "y" ≠ []
    ∧ dictLookup (resolveLinked
        ⟨[("/p", [("y", "P")]), ("/q", [("y", "Q"), ("z", "Z")])],
         [("/p", ["L"])], [("L", ["/q"])]⟩ (ancestorPaths ["p"])) "y"
      = (defsAlong [("/p", [("y", "P")]), ("/q", [("y", "Q"), ("z", "Z")])]
          (ancestorPaths ["p"]) "y").getLast?
    ∧ dictLookup (resolveLinked
        ⟨[("/p", [("y", "P")]), ("/q", [("y", "Q"), ("z", "Z")])],
         [("/p", ["L"])], [("L", ["/q"])]⟩ (ancestorPaths ["p"])) "y" = some "P"
    ∧ dictLookup (resolveLinked
        ⟨[("/p", [("y", "P")]), ("/q", [("y", "Q"), ("z", "Z")])],
         [("/p", ["L"])], [("L", ["/q"])]⟩ (ancestorPaths ["p"])) "z" = some "Z" :=
  ⟨by decide, by decide,
   resolveLinked_direct_beats_linked _ _ "y" (by decide) (by decide),
   by decide, by decide⟩

/-- C3 counterexample: with the child shell exiting with status `7`, the
tool's own process exit code is `0`, not `7` — the exit status is not
propagated. -/
theorem dispatch_discards_child_exit :
    (dispatch "make" [] 7).processExit = 0 ∧ ¬ (dispatch "make" [] 7).processExit = 7 :=
  ⟨rfl, by decide⟩

/-- C3 amended: after running a resolved command, the tool's process exit
code is always `0`, regardless of the child shell's exit status — the
`Output` returned by `.output()` (which carries the child status) is
discarded and `main` falls through to `Ok(())`. -/
theorem dispatch_exit_always_zero (args : String) (passthrough : List String)
    (childExit : Nat) : (dispatch args passthrough childExit).processExit = 0 := rfl

/-- C4 counterexample: removing an alias under a directory with no registered
project is a silent no-op — `del` prints nothing at all (no "project not
found" report) and leaves the store unchanged, because the whole body is
inside `if let Some(project) = config.get_project(pwd)`. -/
theorem del_missing_project_silent :
    del ⟨[("/a", [("x", "v")])], []⟩ "/b" "x" = (⟨[("/a", [("x", "v")])], []⟩, []) := rfl

theorem dictRemove_lookup_self {α : Type} (k : String) (m : Dict α) :
    dictLookup (dictRemove k m) k = none := by
  rw [dictLookup_eq_none_iff]
  intro hk
  unfold dictRemove dictKeys at hk
  rcases List.mem_map.mp hk with ⟨p, hp, hfst⟩
  have hmem := List.of_mem_filter hp
  rw [hfst] at hmem
  simp at hmem

/-- C4 amended: `Remove(directory, name)` has three outcomes, of which only
two produce a report: if the exact project exists and contains `name`, the
alias is deleted and success is reported; if the project exists but lacks
`name`, a not-found line plus the full direct command list is printed; if the
project itself does not exist, `del` silently does nothing — no "project not
found" report is produced and the store is unchanged. -/
theorem del_outcomes (cfg : Config) (pwd name : String) :
    (get_project cfg pwd = none → del cfg pwd name = (cfg, []))
    ∧ (∀ pr, get_project cfg pwd = some pr → dictLookup pr name = none →
        del cfg pwd name
          = (cfg, ("Alias \"" ++ name ++ "\" does not exist.") :: print_project_commands pr))
    ∧ (∀ pr v, get_project cfg pwd = some pr → dictLookup pr name = some v →
        del cfg pwd name
            = ({ cfg with projects := dictUpdate pwd (dictRemove name pr) cfg.projects },
               ["Removed alias \"" ++ name ++ "\""])
          ∧ dictLookup (dictRemove name pr) name = none) := by
  refine ⟨?_, ?_, ?_⟩
  · intro h
    unfold del
    rw [h]
  · intro pr h1 h2
    unfold del
    rw [h1]
    show delFound cfg pwd name pr = _
    unfold delFound
    rw [h2]
  · intro pr v h1 h2
    refine ⟨?_, dictRemove_lookup_self name pr⟩
    unfold del
    rw [h1]
    show delFound cfg pwd name pr = _
    unfold delFound
    rw [h2]

/-- Witness for C4 amended: a concrete successful removal through the third
outcome. -/
theorem del_outcomes_witness :
    del ⟨[("/a", [("x", "v")])], []⟩ "/a" "x"
        = ({ (⟨[("/a", [("x", "v")])], []⟩ : Config) with
            projects := dictUpdate "/a" (dictRemove "x" [("x", "v")])
              (⟨[("/a", [("x", "v")])], []⟩ : Config).projects },
           ["Removed alias \"x\""])
    ∧ dictLookup (dictRemove "x" [("x", "v")]) "x" = none :=
  (del_outcomes ⟨[("/a", [("x", "v")])], []⟩ "/a" "x").2.2 [("x", "v")] "v" rfl rfl

/-- C5 (code bug): `add`, run with a raw `--pwd` spelling `"/a/b/"` that
canonicalizes to `"/a/b"` and with no project registered there, inserts the
RAW spelling as the store key (main.rs 309 uses `pwd`, not the canonical
path), so the new entry is invisible to `get_project`, which canonicalizes
its lookups — contradicting the invariant that every stored project path-key
is canonicalized. -/
theorem add_inserts_raw_key :
    (add ⟨[], []⟩ "/a/b/" "/a/b" "x" "make" true).projects
        = [("/a/b/", [("x", "make")])]
    ∧ get_project (add ⟨[], []⟩ "/a/b/" "/a/b" "x" "make" true) "/a/b" = none :=
  ⟨by decide, by decide⟩

theorem filter_no_projects (l : List (String × Json))
    (h : ∀ kv ∈ l, kv.1 ≠ "projects") :
    l.filter (fun kv => kv.1 == "projects") = [] := by
  rw [List.filter_eq_nil_iff]
  intro kv hkv hb
  exact h kv hkv (beq_iff_eq.mp hb)

/-- C7 counterexample: loading the document `{}` — the `projects` key missing
— fails (serde reports a missing field and `read_config` panics) instead of
defaulting the mapping to empty. -/
theorem decodeConfig_missing_projects_fails : decodeConfig (Json.obj []) = none := rfl

/-- C7 amended: loading succeeds with unknown top-level keys, which are
ignored (any fields other than `projects`, e.g. a `links` mapping, are
skipped), but a document whose `projects` mapping is missing fails to load
rather than defaulting to an empty mapping. -/
theorem decodeConfig_fields (pre post pfields : List (String × Json)) (m : Dict (Dict String))
    (h1 : ∀ kv ∈ pre ++ post, kv.1 ≠ "projects")
    (h2 : decodeProjects pfields = some m) :
    decodeConfig (Json.obj (pre ++ ("projects", Json.obj pfields) :: post)) = some ⟨m, []⟩
    ∧ decodeConfig (Json.obj (pre ++ post)) = none := by
  have hpre : ∀ kv ∈ pre, kv.1 ≠ "projects" :=
    fun kv hkv => h1 kv (List.mem_append_left _ hkv)
  have hpost : ∀ kv ∈ post, kv.1 ≠ "projects" :=
    fun kv hkv => h1 kv (List.mem_append_right _ hkv)
  constructor
  · have hfil : (pre ++ ("projects", Json.obj pfields) :: post).filter
        (fun kv => kv.1 == "projects") = [("projects", Json.obj pfields)] := by
      have hcons : (("projects", Json.obj pfields) :: post).filter
          (fun kv => kv.1 == "projects")
          = ("projects", Json.obj pfields) :: post.filter (fun kv => kv.1 == "projects") := by
        rw [List.filter_cons, if_pos]
        exact beq_self_eq_true "projects"
      rw [List.filter_append, filter_no_projects pre hpre, hcons,
        filter_no_projects post hpost, List.nil_append]
    show decodeConfigFields (pre ++ ("projects", Json.obj pfields) :: post) = _
    unfold decodeConfigFields
    rw [hfil]
    show (decodeProjects pfields).map (fun ps => (⟨ps, []⟩ : Config)) = some ⟨m, []⟩
    rw [h2]
    rfl
  · have hfil : (pre ++ post).filter (fun kv => kv.1 == "projects") = [] :=
      filter_no_projects _ h1
    show decodeConfigFields (pre ++ post) = _
    unfold decodeConfigFields
    rw [hfil]

/-- Witness for C7 amended: a document with an unknown `links` key loads
(ignoring it) when `projects` is present, and fails when `projects` is
missing. -/
theorem decodeConfig_fields_witness :
    (∀ kv ∈ ([("links", Json.obj [])] ++ ([] : List (String × Json))), kv.1 ≠ "projects")
    ∧ decodeProjects [] = some []
    ∧ decodeConfig (Json.obj ([("links", Json.obj [])] ++ ("projects", Json.obj []) :: []))
        = some ⟨[], []⟩
    ∧ decodeConfig (Json.obj ([("links", Json.obj [])] ++ [])) = none := by
  have h1 : ∀ kv ∈ ([("links", Json.obj [])] ++ ([] : List (String × Json))),
      kv.1 ≠ "projects" := by
    intro kv hkv
    rcases List.mem_singleton.mp (by simpa using hkv) with rfl
    decide
  have h2 : decodeProjects ([] : List (String × Json)) = some [] := rfl
  obtain ⟨ha, hb⟩ := decodeConfig_fields [("links", Json.obj [])] [] [] [] h1 h2
  exact ⟨h1, h2, ha, hb⟩

/-- C10: `confirm` returns `true` exactly when the trimmed input line is
`"y"`, `"Y"`, or the empty string — so pressing Enter with no input (the line
`"\n"`) counts as consent — even though the printed prompt displays
`"(y/N)"`, suggesting that no is the default. -/
theorem confirm_semantics (m s : String) :
    ((confirm m s).2 = true ↔ (rustTrim s = "y" ∨ rustTrim s = "Y" ∨ rustTrim s = ""))
    ∧ (confirm m "\n").2 = true
    ∧ (confirm m s).1 = m ++ " (y/N) " := by
  refine ⟨?_, ?_, rfl⟩
  · show (rustTrim s == "y" || rustTrim s == "Y" || rustTrim s == "") = true ↔ _
    simp [Bool.or_eq_true, beq_iff_eq, or_assoc]
  · show (rustTrim "\n" == "y" || rustTrim "\n" == "Y" || rustTrim "\n" == "") = true
    decide

end Taco
